import Mathlib

/-!
Verification of the newsletter content-extraction pipeline of the
gmail-mcp-server repository (src/gmail_client.py and src/newsletter.py).

Strings are modelled as `List Char`.  External collaborators (the Gmail API
service, the base64url decoder of the Python standard library, and the
BeautifulSoup HTML parsing front-end) are modelled as function parameters;
everything that the repository itself computes is translated definition by
definition from the Python source.
-/

set_option maxRecDepth 2000

namespace Gmail

/-! ## Python string primitives used by the pipeline -/

/-- Characters treated as whitespace by Python's `str.strip()` (ASCII range;
the inputs handled by the pipeline are decoded e-mail text). -/
def isPySpace (c : Char) : Bool :=
  c = ' ' || c = '\t' || c = '\n' || c = '\r' || c = Char.ofNat 11 || c = Char.ofNat 12

/-- Drop leading Python whitespace. -/
def frontStrip (s : List Char) : List Char := s.dropWhile isPySpace

/-- Python `str.strip()`: drop leading and trailing whitespace. -/
def pyStrip (s : List Char) : List Char :=
  ((frontStrip s).reverse.dropWhile isPySpace).reverse

/-- Python `content.split('\n')`: split at every newline, keeping empty
pieces; the result is always non-empty. -/
def splitNl : List Char → List (List Char)
  | [] => [[]]
  | c :: rest =>
    if c = '\n' then [] :: splitNl rest
    else
      match splitNl rest with
      | [] => [[c]]
      | l :: ls => (c :: l) :: ls

/-- Python `'\n'.join(lines)`. -/
def joinNl : List (List Char) → List Char
  | [] => []
  | [l] => l
  | l :: ls => l ++ '\n' :: joinNl ls

/-- Python `re.sub(r' +', ' ', s)`: collapse every run of consecutive
spaces to a single space (a space followed by another space is dropped). -/
def collapseSpaces : List Char → List Char
  | [] => []
  | [c] => [c]
  | c :: d :: rest =>
    if c = ' ' ∧ d = ' ' then collapseSpaces (d :: rest)
    else c :: collapseSpaces (d :: rest)

/-- Bool test: does `pat` occur at the start of `s`? -/
def leadsWith : List Char → List Char → Bool
  | [], _ => true
  | _ :: _, [] => false
  | a :: as, b :: bs => a = b && leadsWith as bs

/-- Bool test: does `pat` occur as a contiguous substring of `s`
(Python `pat in s`)? -/
def hasSub (pat : List Char) : List Char → Bool
  | [] => leadsWith pat []
  | s@(_ :: rest) => leadsWith pat s || hasSub pat rest

/-- ASCII lower-casing of one character (Python `str.lower()` on the
character sets occurring in this pipeline). -/
def toLowerCh (c : Char) : Char :=
  if 'A' ≤ c ∧ c ≤ 'Z' then Char.ofNat (c.toNat + 32) else c

/-- Python `s.lower()`. -/
def lowerStr (s : List Char) : List Char := s.map toLowerCh

/-! ## Body Extractor (src/gmail_client.py, `get_email_body`)

A Gmail body part: `mimeType`, the optional base64url `body.data` payload
(`data = []` models the Python-falsy cases "key absent" and "empty string",
which `extract_parts` treats identically via `part.get('body', {}).get('data', '')`),
and the optional list of child parts (`parts = none` models a payload
without a `'parts'` key; `extract_parts` reads it as `part.get('parts', [])`). -/
inductive Part where
  | mk (mimeType : List Char) (data : List Char) (parts : Option (List Part))

def plainType : List Char := "text/plain".toList
def htmlType : List Char := "text/html".toList
def multiPre : List Char := "multipart/".toList

mutual

/-- The inner closure `extract_parts` of `get_email_body`: it mutates the
accumulated `(plain_body, html_body)` pair, assigning the decoded payload of
every `text/plain` / `text/html` leaf with non-empty data (later assignments
overwrite earlier ones), and recursing into `multipart/*` containers.
`decode` models `decode_base64_data`, which returns `""` when base64 or
UTF-8 decoding raises. -/
def extract_parts (decode : List Char → List Char) :
    Part → List Char × List Char → List Char × List Char
  | .mk mt d ps, acc =>
    if mt = plainType then (if d ≠ [] then (decode d, acc.2) else acc)
    else if mt = htmlType then (if d ≠ [] then (acc.1, decode d) else acc)
    else if leadsWith multiPre mt then
      match ps with
      | some l => extractPartsList decode l acc
      | none => acc
    else acc

/-- Sequential processing of a list of sibling parts (the `for subpart in
part.get('parts', [])` loop). -/
def extractPartsList (decode : List Char → List Char) :
    List Part → List Char × List Char → List Char × List Char
  | [], acc => acc
  | p :: rest, acc => extractPartsList decode rest (extract_parts decode p acc)

end

/-- `get_email_body` from src/gmail_client.py: walk the payload's part tree
when a `'parts'` key is present, otherwise classify the single-part body by
its own mimeType (anything other than `text/html` counts as plain text). -/
def get_email_body (decode : List Char → List Char) : Part → List Char × List Char
  | .mk mt d ps =>
    match ps with
    | some l => extractPartsList decode l ([], [])
    | none =>
      if d ≠ [] then
        if mt = htmlType then ([], decode d) else (decode d, [])
      else ([], [])

mutual

/-- Specification-side characterization: the `body.data` payloads of the
`text/plain` leaves that the `extract_parts` traversal visits and assigns
from, in traversal (document) order. -/
def plainData : Part → List (List Char)
  | .mk mt d ps =>
    if mt = plainType then (if d ≠ [] then [d] else [])
    else if mt = htmlType then []
    else if leadsWith multiPre mt then
      match ps with
      | some l => plainDataList l
      | none => []
    else []

def plainDataList : List Part → List (List Char)
  | [] => []
  | p :: rest => plainData p ++ plainDataList rest

end

mutual

/-- Specification-side characterization: payloads of the visited
`text/html` leaves, in traversal order. -/
def htmlData : Part → List (List Char)
  | .mk mt d ps =>
    if mt = plainType then []
    else if mt = htmlType then (if d ≠ [] then [d] else [])
    else if leadsWith multiPre mt then
      match ps with
      | some l => htmlDataList l
      | none => []
    else []

def htmlDataList : List Part → List (List Char)
  | [] => []
  | p :: rest => htmlData p ++ htmlDataList rest

end

/-- Last-writer-wins accumulator: folding the assignment `x := decode d`
over the visited payloads. -/
def lastAssign (decode : List Char → List Char) (ds : List (List Char)) (x : List Char) :
    List Char :=
  ds.foldl (fun _ d => decode d) x

theorem lastAssign_append (decode : List Char → List Char) (a b : List (List Char))
    (x : List Char) : lastAssign decode (a ++ b) x = lastAssign decode b (lastAssign decode a x) := by
  simp [lastAssign, List.foldl_append]

theorem htmlType_ne_plainType : htmlType ≠ plainType := by decide

theorem extract_parts_mk (decode : List Char → List Char) (mt d : List Char)
    (ps : Option (List Part)) (acc : List Char × List Char) :
    extract_parts decode (.mk mt d ps) acc =
      (if mt = plainType then (if d ≠ [] then (decode d, acc.2) else acc)
      else if mt = htmlType then (if d ≠ [] then (acc.1, decode d) else acc)
      else if leadsWith multiPre mt then
        match ps with
        | some l => extractPartsList decode l acc
        | none => acc
      else acc) := by
  rw [extract_parts.eq_def]

theorem extractPartsList_nil (decode : List Char → List Char)
    (acc : List Char × List Char) : extractPartsList decode [] acc = acc := by
  rw [extractPartsList.eq_def]

theorem extractPartsList_cons (decode : List Char → List Char) (p : Part)
    (rest : List Part) (acc : List Char × List Char) :
    extractPartsList decode (p :: rest) acc =
      extractPartsList decode rest (extract_parts decode p acc) := by
  rw [extractPartsList.eq_def]

theorem plainData_mk (mt d : List Char) (ps : Option (List Part)) :
    plainData (.mk mt d ps) =
      (if mt = plainType then (if d ≠ [] then [d] else [])
      else if mt = htmlType then []
      else if leadsWith multiPre mt then
        match ps with
        | some l => plainDataList l
        | none => []
      else []) := by
  rw [plainData.eq_def]

theorem plainDataList_nil : plainDataList [] = [] := by
  rw [plainDataList.eq_def]

theorem plainDataList_cons (p : Part) (rest : List Part) :
    plainDataList (p :: rest) = plainData p ++ plainDataList rest := by
  rw [plainDataList.eq_def]

theorem htmlData_mk (mt d : List Char) (ps : Option (List Part)) :
    htmlData (.mk mt d ps) =
      (if mt = plainType then []
      else if mt = htmlType then (if d ≠ [] then [d] else [])
      else if leadsWith multiPre mt then
        match ps with
        | some l => htmlDataList l
        | none => []
      else []) := by
  rw [htmlData.eq_def]

theorem htmlDataList_nil : htmlDataList [] = [] := by
  rw [htmlDataList.eq_def]

theorem htmlDataList_cons (p : Part) (rest : List Part) :
    htmlDataList (p :: rest) = htmlData p ++ htmlDataList rest := by
  rw [htmlDataList.eq_def]

theorem extract_parts_eq_aux (decode : List Char → List Char) :
    ∀ n : Nat,
      (∀ p : Part, sizeOf p < n → ∀ acc, extract_parts decode p acc =
        (lastAssign decode (plainData p) acc.1, lastAssign decode (htmlData p) acc.2)) ∧
      (∀ l : List Part, sizeOf l < n → ∀ acc, extractPartsList decode l acc =
        (lastAssign decode (plainDataList l) acc.1, lastAssign decode (htmlDataList l) acc.2)) := by
  intro n
  induction n using Nat.strong_induction_on with
  | _ n ih =>
    constructor
    · intro p hp acc
      cases p with
      | mk mt d ps =>
        rw [extract_parts_mk, plainData_mk, htmlData_mk]
        by_cases h1 : mt = plainType
        · by_cases h2 : d ≠ [] <;> simp [h1, h2, lastAssign]
        · by_cases h2 : mt = htmlType
          · by_cases h3 : d ≠ [] <;> simp [h1, h2, h3, lastAssign, htmlType_ne_plainType]
          · by_cases h3 : leadsWith multiPre mt
            · cases ps with
              | some l =>
                have := (ih (sizeOf l + 1) (by
                  simp only [Part.mk.sizeOf_spec, Option.some.sizeOf_spec] at hp
                  omega)).2 l (Nat.lt_succ_self _) acc
                simp [h1, h2, h3, this]
              | none => simp [h1, h2, h3, lastAssign]
            · simp [h1, h2, h3, lastAssign]
    · intro l hl acc
      cases l with
      | nil =>
        rw [extractPartsList_nil, plainDataList_nil, htmlDataList_nil]
        simp [lastAssign]
      | cons p rest =>
        simp only [List.cons.sizeOf_spec] at hl
        rw [extractPartsList_cons, plainDataList_cons, htmlDataList_cons]
        rw [(ih (sizeOf p + 1) (by omega)).1 p (Nat.lt_succ_self _) acc,
          (ih (sizeOf rest + 1) (by omega)).2 rest (Nat.lt_succ_self _)]
        simp [lastAssign_append]

/-- `extract_parts` is exactly a last-writer-wins fold over the visited
plain/html leaf payloads. -/
theorem extract_parts_eq (decode : List Char → List Char) (p : Part)
    (acc : List Char × List Char) :
    extract_parts decode p acc =
      (lastAssign decode (plainData p) acc.1, lastAssign decode (htmlData p) acc.2) :=
  (extract_parts_eq_aux decode (sizeOf p + 1)).1 p (Nat.lt_succ_self _) acc

theorem extractPartsList_eq (decode : List Char → List Char) (l : List Part)
    (acc : List Char × List Char) :
    extractPartsList decode l acc =
      (lastAssign decode (plainDataList l) acc.1, lastAssign decode (htmlDataList l) acc.2) :=
  (extract_parts_eq_aux decode (sizeOf l + 1)).2 l (Nat.lt_succ_self _) acc

/-- Claim C5: `get_email_body` performs a depth-first, document-order traversal
in which a later matching leaf overwrites an earlier one.  When the traversal
visits exactly two `text/plain` leaves, with payloads `a` then `b` in document
order, the returned plain body is the decode of `b` (the last one); the same
last-writer-wins rule holds simultaneously for the `text/html` leaves. -/
theorem claim_C5_last_wins (decode : List Char → List Char) (mt dta : List Char)
    (l : List Part) (a b c d : List Char)
    (hplain : plainDataList l = [a, b]) (hhtml : htmlDataList l = [c, d]) :
    get_email_body decode (.mk mt dta (some l)) = (decode b, decode d) := by
  simp only [get_email_body]
  rw [extractPartsList_eq, hplain, hhtml]
  simp [lastAssign]

/-- Witness for C5: a multipart payload with `text/plain` leaves "A" then "B"
and `text/html` leaves "C" then "D" extracts to ("B", "D"). -/
theorem claim_C5_witness :
    get_email_body (fun s => s)
      (Part.mk "multipart/mixed".toList []
        (some [Part.mk plainType "A".toList none, Part.mk plainType "B".toList none,
               Part.mk htmlType "C".toList none, Part.mk htmlType "D".toList none]))
      = ("B".toList, "D".toList) :=
  claim_C5_last_wins (fun s => s) "multipart/mixed".toList []
    [Part.mk plainType "A".toList none, Part.mk plainType "B".toList none,
     Part.mk htmlType "C".toList none, Part.mk htmlType "D".toList none]
    "A".toList "B".toList "C".toList "D".toList (by decide) (by decide)

/-- Claim C10: in `extract_parts`, a `text/plain` or `text/html` leaf whose
`body.data` is absent or empty leaves the accumulated pair unchanged (it never
overwrites an earlier assignment); a leaf with non-empty data always assigns
`decode data` — in particular, when base64 decoding fails (`decode` yields
`""`), the empty string is assigned, overwriting any earlier decoded value. -/
theorem claim_C10_empty_data (decode : List Char → List Char)
    (acc : List Char × List Char) (d : List Char) (ps : Option (List Part)) :
    extract_parts decode (.mk plainType [] ps) acc = acc ∧
    extract_parts decode (.mk htmlType [] ps) acc = acc ∧
    (d ≠ [] →
      extract_parts decode (.mk plainType d ps) acc = (decode d, acc.2) ∧
      extract_parts decode (.mk htmlType d ps) acc = (acc.1, decode d)) := by
  refine ⟨?_, ?_, fun hd => ⟨?_, ?_⟩⟩
  · rw [extract_parts_mk]; simp
  · rw [extract_parts_mk]; simp [htmlType_ne_plainType]
  · rw [extract_parts_mk]; simp [hd]
  · rw [extract_parts_mk]; simp [htmlType_ne_plainType, hd]

/-- Witness for C10: a failing decode on a non-empty `text/plain` leaf
overwrites the previously extracted plain body with the empty string, while an
empty-data leaf leaves the accumulator untouched. -/
theorem claim_C10_witness :
    extract_parts (fun _ => []) (Part.mk plainType "!!".toList none)
      ("old".toList, "h".toList) = ([], "h".toList) ∧
    extract_parts (fun _ => []) (Part.mk plainType [] none)
      ("old".toList, "h".toList) = ("old".toList, "h".toList) :=
  ⟨((claim_C10_empty_data (fun _ => []) ("old".toList, "h".toList) "!!".toList
      none).2.2 (by decide)).1,
   (claim_C10_empty_data (fun _ => []) ("old".toList, "h".toList) "!!".toList
      none).1⟩

/-! ## Newsletter Aggregator (src/newsletter.py, `fetch_newsletters`)

The Gmail service is external; only its observable behaviour per sender
matters to `fetch_newsletters`.  A sender's interaction is either an exception
raised by the `messages().list` search itself, or a returned list of message
references, each of which then either yields a record through the
`messages().get` / `parse_email_content` / `clean_email_content` chain or
raises somewhere in that chain. -/

/-- One compact record `{id, subject, date, content}` appended to
`sender_emails` for a successfully processed message. -/
structure NewsletterRecord where
  id : List Char
  subject : List Char
  date : List Char
  content : List Char
deriving DecidableEq

/-- Processing outcome for one message reference of a sender: `raised` models
an exception anywhere in the get/parse/clean chain for that message,
`fetched r` a successful pass producing record `r`. -/
inductive MsgFetch where
  | raised
  | fetched (r : NewsletterRecord)
deriving DecidableEq

/-- Observable outcome of one sender's Gmail interaction: `listError` models
an exception in the `messages().list` search call, `refs ms` a returned
(possibly empty) reference list together with each message's outcome. -/
inductive SenderOutcome where
  | listError
  | refs (ms : List MsgFetch)
deriving DecidableEq

def isRaised : MsgFetch → Bool
  | .raised => true
  | .fetched _ => false

/-- The inner `for msg_ref in messages` loop: process references in order,
appending each produced record to `sender_emails` and bumping `total_emails`;
an exception aborts the loop, keeping the records (and count bumps) already
made.  Returns the records produced and whether the loop raised. -/
def runMessages : List MsgFetch → List NewsletterRecord →
    List NewsletterRecord × Bool
  | [], acc => (acc, false)
  | .raised :: _, acc => (acc, true)
  | .fetched r :: rest, acc => runMessages rest (acc ++ [r])

/-- The digest assembled by `fetch_newsletters`.  The `date_range` and
`hours_back` fields are derived from the wall clock (`datetime.now()`), an
external input, and are not modelled; the mapping is a Python dict, i.e. an
insertion-ordered association list with overwrite-on-duplicate-key. -/
structure NewsletterDigest where
  total_emails : Nat
  newsletters_by_sender : List (List Char × List NewsletterRecord)
deriving DecidableEq

/-- Python dict assignment `newsletters_by_sender[sender] = sender_emails`:
overwrite in place when the key exists, append otherwise. -/
def dictInsert (k : List Char) (v : List NewsletterRecord)
    (m : List (List Char × List NewsletterRecord)) :
    List (List Char × List NewsletterRecord) :=
  if m.any (fun p => p.1 = k) then m.map (fun p => if p.1 = k then (k, v) else p)
  else m ++ [(k, v)]

/-- One iteration of the `for sender in senders` loop of `fetch_newsletters`,
with its `try/except` wrapper: a `list` failure or empty reference list leaves
the digest unchanged (`continue`); otherwise the message loop runs, its
per-message `total_emails += 1` bumps survive even when a later message of the
same sender raises, and the sender's entry is stored only when the loop
finished without raising and produced at least one record. -/
def processSender (svc : List Char → SenderOutcome) (st : NewsletterDigest)
    (sender : List Char) : NewsletterDigest :=
  match svc sender with
  | .listError => st
  | .refs rs =>
    if rs.isEmpty then st
    else
      let pr := runMessages rs []
      let st1 : NewsletterDigest :=
        ⟨st.total_emails + pr.1.length, st.newsletters_by_sender⟩
      if pr.2 then st1
      else if pr.1.isEmpty then st1
      else ⟨st1.total_emails, dictInsert sender pr.1 st1.newsletters_by_sender⟩

/-- `fetch_newsletters` from src/newsletter.py, processing the resolved
sender list sequentially against the (external) Gmail service `svc`. -/
def fetch_newsletters (svc : List Char → SenderOutcome)
    (senders : List (List Char)) : NewsletterDigest :=
  senders.foldl (processSender svc) ⟨0, []⟩

/-- Specification-side characterization: the number of records a sender's
processing produces before completing or raising (each bumped
`total_emails`). -/
def producedCount (svc : List Char → SenderOutcome) (s : List Char) : Nat :=
  match svc s with
  | .listError => 0
  | .refs rs => (runMessages rs []).1.length

/-- Specification-side characterization: the mapping entry a sender ends up
with — `some` of its records exactly when the search succeeded, no message
raised, and at least one record was produced. -/
def senderEntry (svc : List Char → SenderOutcome) (s : List Char) :
    Option (List NewsletterRecord) :=
  match svc s with
  | .listError => none
  | .refs rs =>
    if rs.isEmpty then none
    else
      let pr := runMessages rs []
      if pr.2 then none
      else if pr.1.isEmpty then none
      else some pr.1

theorem processSender_spec (svc : List Char → SenderOutcome)
    (st : NewsletterDigest) (s : List Char) :
    (processSender svc st s).total_emails = st.total_emails + producedCount svc s ∧
    (processSender svc st s).newsletters_by_sender =
      (match senderEntry svc s with
       | none => st.newsletters_by_sender
       | some v => dictInsert s v st.newsletters_by_sender) := by
  unfold processSender producedCount senderEntry
  cases h : svc s with
  | listError => simp
  | refs rs =>
    by_cases hrs : rs.isEmpty
    · have : rs = [] := List.isEmpty_iff.mp hrs
      subst this
      simp [runMessages]
    · by_cases hf : (runMessages rs []).2
      · simp [hrs, hf]
      · by_cases he : (runMessages rs []).1.isEmpty
        · simp [hrs, hf, he]
        · simp [hrs, hf, he]

theorem foldl_total (svc : List Char → SenderOutcome) (senders : List (List Char)) :
    ∀ st : NewsletterDigest,
      (senders.foldl (processSender svc) st).total_emails
        = st.total_emails + (senders.map (producedCount svc)).sum := by
  induction senders with
  | nil => intro st; simp
  | cons s rest ih =>
    intro st
    rw [List.foldl_cons, ih, (processSender_spec svc st s).1]
    simp [Nat.add_assoc]

theorem dictInsert_of_fresh (k : List Char) (v : List NewsletterRecord)
    (m : List (List Char × List NewsletterRecord))
    (h : ∀ e ∈ m, e.1 ≠ k) : dictInsert k v m = m ++ [(k, v)] := by
  unfold dictInsert
  have : m.any (fun p => p.1 = k) = false := by
    simp only [List.any_eq_false]
    intro p hp
    simpa using h p hp
  simp [this]

theorem foldl_by_sender (svc : List Char → SenderOutcome) :
    ∀ (senders : List (List Char)) (st : NewsletterDigest),
      senders.Nodup →
      (∀ s ∈ senders, ∀ e ∈ st.newsletters_by_sender, e.1 ≠ s) →
      (senders.foldl (processSender svc) st).newsletters_by_sender
        = st.newsletters_by_sender ++
          senders.filterMap (fun s => (senderEntry svc s).map (fun v => (s, v))) := by
  intro senders
  induction senders with
  | nil => intro st _ _; simp
  | cons s rest ih =>
    intro st hnd hfresh
    rw [List.foldl_cons]
    have hspec := (processSender_spec svc st s).2
    cases hE : senderEntry svc s with
    | none =>
      rw [hE] at hspec
      rw [ih _ (List.Nodup.of_cons hnd) (by
        intro t ht e he
        exact hfresh t (List.mem_cons_of_mem s ht) e (by rwa [hspec] at he))]
      simp [hspec, hE]
    | some v =>
      rw [hE] at hspec
      dsimp only at hspec
      have hfr : ∀ e ∈ st.newsletters_by_sender, e.1 ≠ s :=
        fun e he => hfresh s (List.mem_cons_self s rest) e he
      rw [ih _ (List.Nodup.of_cons hnd) (by
        intro t ht e he
        rw [hspec, dictInsert_of_fresh s v _ hfr] at he
        rcases List.mem_append.mp he with h1 | h1
        · exact hfresh t (List.mem_cons_of_mem s ht) e h1
        · have he2 : e = (s, v) := by simpa using h1
          subst he2
          intro hc
          simp only at hc
          exact (List.nodup_cons.mp hnd).1 (by rwa [hc])
        )]
      rw [hspec, dictInsert_of_fresh s v _ hfr]
      simp [hE]

/-- Claim C1 (amended): for duplicate-free sender lists,
`newsletters_by_sender` contains exactly those requested senders whose
processing completed without an exception and produced at least one record,
in request order; and `total_emails` equals the total number of records
produced across all senders — including records produced before a mid-sender
exception, which are counted in `total_emails` even though the failing
sender's records are absent from the mapping.  (As originally stated — with
`total_emails` equal to the sum over the mapping even when a sender raises
partway — the claim is false; see the counterexample.) -/
theorem claim_C1_amended (svc : List Char → SenderOutcome)
    (senders : List (List Char)) (hnd : senders.Nodup) :
    (fetch_newsletters svc senders).total_emails
      = (senders.map (producedCount svc)).sum ∧
    (fetch_newsletters svc senders).newsletters_by_sender
      = senders.filterMap (fun s => (senderEntry svc s).map (fun v => (s, v))) := by
  constructor
  · rw [fetch_newsletters, foldl_total]
    simp
  · rw [fetch_newsletters, foldl_by_sender svc senders ⟨0, []⟩ hnd (by simp)]
    simp

def recW : NewsletterRecord := ⟨['1'], ['s'], ['d'], ['c']⟩

def svcC1w : List Char → SenderOutcome := fun s =>
  if s = ['a'] then .refs [.fetched recW] else .refs []

/-- Witness for the amended C1, at a service where sender "a" yields one
record and sender "b" yields no messages. -/
theorem claim_C1_witness :
    (fetch_newsletters svcC1w [['a'], ['b']]).total_emails
      = ([['a'], ['b']].map (producedCount svcC1w)).sum ∧
    (fetch_newsletters svcC1w [['a'], ['b']]).newsletters_by_sender
      = [['a'], ['b']].filterMap
          (fun s => (senderEntry svcC1w s).map (fun v => (s, v))) :=
  claim_C1_amended svcC1w [['a'], ['b']] (by decide)

def svcC1 : List Char → SenderOutcome := fun _ =>
  .refs [.fetched recW, .raised]

/-- Counterexample to claim C1 as stated: one requested sender whose second
message raises after the first message already produced a record.  The record
was counted (`total_emails = 1`) but the sender is absent from the mapping, so
`total_emails` is not the sum of the record-list lengths present in the
mapping, even though a record was produced for that sender. -/
theorem claim_C1_counterexample :
    (fetch_newsletters svcC1 [['a']]).total_emails ≠
      (((fetch_newsletters svcC1 [['a']]).newsletters_by_sender).map
        (fun e => e.2.length)).sum := by decide

/-- Does this sender's processing raise anywhere (search call or some
message's get/parse/clean chain)? -/
def outcomeFails : SenderOutcome → Bool
  | .listError => true
  | .refs rs => rs.any isRaised

theorem runMessages_failed : ∀ (rs : List MsgFetch) (acc : List NewsletterRecord),
    (runMessages rs acc).2 = rs.any isRaised := by
  intro rs
  induction rs with
  | nil => intro acc; simp [runMessages]
  | cons m rest ih =>
    intro acc
    cases m with
    | raised => simp [runMessages, isRaised]
    | fetched r => simp [runMessages, isRaised, ih]

theorem runMessages_ok : ∀ (recs : List NewsletterRecord) (acc : List NewsletterRecord),
    runMessages (recs.map MsgFetch.fetched) acc = (acc ++ recs, false) := by
  intro recs
  induction recs with
  | nil => intro acc; simp [runMessages]
  | cons r rest ih => intro acc; simp [runMessages, ih]

theorem senderEntry_none_of_fails (svc : List Char → SenderOutcome) (s : List Char)
    (h : outcomeFails (svc s) = true) : senderEntry svc s = none := by
  unfold senderEntry
  cases hs : svc s with
  | listError => rfl
  | refs rs =>
    rw [hs] at h
    have h2 : rs.any isRaised = true := h
    by_cases hrs : rs.isEmpty
    · simp [hrs]
    · have hrm : (runMessages rs []).2 = true := by rw [runMessages_failed]; exact h2
      simp [hrs, hrm]

theorem senderEntry_of_ok (svc : List Char → SenderOutcome) (s : List Char)
    (recs : List NewsletterRecord) (hs : svc s = .refs (recs.map MsgFetch.fetched))
    (hne : recs ≠ []) : senderEntry svc s = some recs := by
  unfold senderEntry
  rw [hs]
  simp [runMessages_ok, List.isEmpty_iff, hne]

theorem mem_dictInsert_self (k : List Char) (v : List NewsletterRecord)
    (m : List (List Char × List NewsletterRecord)) : (k, v) ∈ dictInsert k v m := by
  unfold dictInsert
  by_cases h : m.any (fun p => p.1 = k)
  · simp only [h, if_true]
    rcases List.any_eq_true.mp h with ⟨p, hp, hpk⟩
    refine List.mem_map.mpr ⟨p, hp, ?_⟩
    simp at hpk
    simp [hpk]
  · simp [h]

theorem mem_dictInsert_of_mem (k : List Char) (v : List NewsletterRecord)
    (m : List (List Char × List NewsletterRecord)) (e : List Char × List NewsletterRecord)
    (he : e ∈ m) (hk : e.1 ≠ k) : e ∈ dictInsert k v m := by
  unfold dictInsert
  by_cases h : m.any (fun p => p.1 = k)
  · simp only [h, if_true]
    refine List.mem_map.mpr ⟨e, he, ?_⟩
    simp [hk]
  · simp [h, he]

theorem mem_of_mem_dictInsert (k : List Char) (v : List NewsletterRecord)
    (m : List (List Char × List NewsletterRecord)) (e : List Char × List NewsletterRecord)
    (he : e ∈ dictInsert k v m) : e ∈ m ∨ e = (k, v) := by
  unfold dictInsert at he
  by_cases h : m.any (fun p => p.1 = k)
  · simp only [h, if_true] at he
    rcases List.mem_map.mp he with ⟨p, hp, hpe⟩
    by_cases hpk : p.1 = k
    · right; simp [hpk] at hpe; exact hpe.symm
    · left; simp [hpk] at hpe; exact hpe ▸ hp
  · simp only [h, if_false] at he
    rcases List.mem_append.mp he with h1 | h1
    · exact Or.inl h1
    · right; simpa using h1

theorem foldl_keeps_entry (svc : List Char → SenderOutcome) (B : List Char)
    (recs : List NewsletterRecord) (hB : senderEntry svc B = some recs) :
    ∀ (l : List (List Char)) (st : NewsletterDigest),
      (B, recs) ∈ st.newsletters_by_sender →
      (B, recs) ∈ (l.foldl (processSender svc) st).newsletters_by_sender := by
  intro l
  induction l with
  | nil => intro st h; simpa using h
  | cons s rest ih =>
    intro st h
    rw [List.foldl_cons]
    refine ih _ ?_
    rw [(processSender_spec svc st s).2]
    cases hE : senderEntry svc s with
    | none => simpa using h
    | some v =>
      simp only
      by_cases hsB : s = B
      · subst hsB
        rw [hB] at hE
        have : v = recs := by injection hE.symm
        subst this
        exact mem_dictInsert_self s v _
      · exact mem_dictInsert_of_mem s v _ _ h (by simp [hsB]; exact fun hc => hsB hc.symm)

theorem foldl_reaches_entry (svc : List Char → SenderOutcome) (B : List Char)
    (recs : List NewsletterRecord) (hB : senderEntry svc B = some recs) :
    ∀ (l : List (List Char)) (st : NewsletterDigest), B ∈ l →
      (B, recs) ∈ (l.foldl (processSender svc) st).newsletters_by_sender := by
  intro l
  induction l with
  | nil => intro st h; cases h
  | cons s rest ih =>
    intro st h
    rw [List.foldl_cons]
    rcases List.mem_cons.mp h with h1 | h1
    · subst h1
      refine foldl_keeps_entry svc B recs hB rest _ ?_
      rw [(processSender_spec svc st B).2, hB]
      exact mem_dictInsert_self B recs _
    · exact ih _ h1

theorem foldl_no_failed_key (svc : List Char → SenderOutcome) (A : List Char)
    (hA : outcomeFails (svc A) = true) :
    ∀ (l : List (List Char)) (st : NewsletterDigest),
      (∀ e ∈ st.newsletters_by_sender, e.1 ≠ A) →
      ∀ e ∈ (l.foldl (processSender svc) st).newsletters_by_sender, e.1 ≠ A := by
  intro l
  induction l with
  | nil => intro st h; simpa using h
  | cons s rest ih =>
    intro st h
    rw [List.foldl_cons]
    refine ih _ ?_
    intro e he
    rw [(processSender_spec svc st s).2] at he
    cases hE : senderEntry svc s with
    | none => rw [hE] at he; exact h e he
    | some v =>
      rw [hE] at he
      rcases mem_of_mem_dictInsert s v _ e he with h1 | h1
      · exact h e h1
      · subst h1
        intro hc
        simp only at hc
        rw [hc] at hE
        rw [senderEntry_none_of_fails svc A hA] at hE
        cases hE

/-- Claim C4: a sender whose processing raises anywhere in its
search/fetch/parse cycle is caught and skipped — it never appears in the
digest — while every other sender is processed unaffected: any sender whose
search returns references that all process successfully has exactly its
records in the digest, and a failure of the search call leaves the digest
identical to the one computed without that sender.  (`fetch_newsletters` is a
total function of the service outcomes, so no exception escapes it.) -/
theorem claim_C4_isolation (svc : List Char → SenderOutcome)
    (senders : List (List Char)) (A : List Char)
    (hA : outcomeFails (svc A) = true) :
    (∀ e ∈ (fetch_newsletters svc senders).newsletters_by_sender, e.1 ≠ A) ∧
    (∀ B recs, B ∈ senders → svc B = .refs (recs.map MsgFetch.fetched) →
      recs ≠ [] →
      (B, recs) ∈ (fetch_newsletters svc senders).newsletters_by_sender) ∧
    (svc A = .listError →
      fetch_newsletters svc (A :: senders) = fetch_newsletters svc senders) := by
  refine ⟨?_, ?_, ?_⟩
  · exact foldl_no_failed_key svc A hA senders ⟨0, []⟩ (by simp)
  · intro B recs hBmem hBsvc hBne
    exact foldl_reaches_entry svc B recs
      (senderEntry_of_ok svc B recs hBsvc hBne) senders ⟨0, []⟩ hBmem
  · intro hle
    unfold fetch_newsletters
    rw [List.foldl_cons]
    have : processSender svc ⟨0, []⟩ A = ⟨0, []⟩ := by
      unfold processSender
      rw [hle]
    rw [this]

def recB1 : NewsletterRecord := ⟨['1'], ['x'], ['d'], ['c']⟩
def recB2 : NewsletterRecord := ⟨['2'], ['y'], ['e'], ['f']⟩

def svcC4 : List Char → SenderOutcome := fun s =>
  if s = ['b'] then .refs [.fetched recB1, .fetched recB2] else .listError

/-- Witness for C4: sender "a" raises at the search call, sender "b" succeeds
with two messages; b's two records are in the digest. -/
theorem claim_C4_witness :
    (['b'], [recB1, recB2]) ∈
      (fetch_newsletters svcC4 [['a'], ['b']]).newsletters_by_sender :=
  (claim_C4_isolation svcC4 [['a'], ['b']] ['a'] (by decide)).2.1
    ['b'] [recB1, recB2] (by decide) (by decide) (by decide)

/-! ## Content Cleaner, HTML pipeline (src/newsletter.py, `extract_main_content`)

BeautifulSoup's `html.parser` front-end is an external library; the parsed
document is modelled as a list of top-level nodes of a DOM-like tree, and the
six passes of `extract_main_content` are translated one by one.  For the
concrete HTML inputs named by the claims, the tree supplied is the one
`html.parser` produces for that input. -/

/-- A BeautifulSoup tree node: an element with tag name, attributes and
children, or a text node (NavigableString). -/
inductive Node where
  | elem (tag : List Char) (attrs : List (List Char × List Char)) (children : List Node)
  | txt (s : List Char)

/-- Tags removed wholesale by pass 1:
`soup(['script', 'style', 'head', 'footer', 'meta', 'link', 'noscript'])`. -/
def badTags : List (List Char) :=
  ["script", "style", "head", "footer", "meta", "link", "noscript"].map String.toList

/-- Attribute lookup (`element.get(name)`). -/
def attrVal (name : List Char) (attrs : List (List Char × List Char)) :
    Option (List Char) :=
  match attrs.find? (fun p => p.1 = name) with
  | some p => some p.2
  | none => none

mutual

/-- Pass 1: `element.decompose()` for every node with a tag in `badTags`,
removing the node and all its descendants. -/
def removeTagsN : Node → List Node
  | .txt s => [.txt s]
  | .elem t a cs => if t ∈ badTags then [] else [.elem t a (removeTagsL cs)]

def removeTagsL : List Node → List Node
  | [] => []
  | n :: ns => removeTagsN n ++ removeTagsL ns

end

/-- The five footer patterns of pass 2. -/
def footerPats : List (List Char) :=
  ["footer", "unsubscribe", "social", "share", "preference"].map String.toList

/-- Does `re.compile(pattern, re.I)` match the node's class or id attribute
for some footer pattern?  (A case-insensitive regex search for a space-free
pattern succeeds exactly when the lower-cased attribute value contains the
pattern as a substring.) -/
def matchesFooterPat (attrs : List (List Char × List Char)) : Bool :=
  footerPats.any (fun p =>
    (match attrVal "class".toList attrs with
     | some v => hasSub p (lowerStr v)
     | none => false) ||
    (match attrVal "id".toList attrs with
     | some v => hasSub p (lowerStr v)
     | none => false))

mutual

/-- Pass 2: decompose every element whose class or id matches a footer
pattern, descendants included. -/
def removeFooterN : Node → List Node
  | .txt s => [.txt s]
  | .elem t a cs =>
    if matchesFooterPat a then [] else [.elem t a (removeFooterL cs)]

def removeFooterL : List Node → List Node
  | [] => []
  | n :: ns => removeFooterN n ++ removeFooterL ns

end

mutual

/-- All descendant strings of a node, in document order (the strings that
`get_text` concatenates). -/
def nodeTexts : Node → List (List Char)
  | .txt s => [s]
  | .elem _ _ cs => nodeTextsL cs

def nodeTextsL : List Node → List (List Char)
  | [] => []
  | n :: ns => nodeTexts n ++ nodeTextsL ns

end

/-- `link.get_text(strip=True)`: concatenation of the stripped descendant
strings. -/
def getTextStripped (cs : List Node) : List Char :=
  ((nodeTextsL cs).map pyStrip).flatten

/-- `link.get('href', '')`. -/
def linkHref (attrs : List (List Char × List Char)) : List Char :=
  (attrVal "href".toList attrs).getD []

mutual

/-- Pass 3: replace every anchor that has a non-empty href not starting with
'#' and non-empty visible text with the string `[text](href)`; other anchors
are left in place (their href is never printed by `get_text`). -/
def convertLinksN : Node → Node
  | .txt s => .txt s
  | .elem t a cs =>
    if t = "a".toList then
      if linkHref a ≠ [] ∧ getTextStripped cs ≠ [] ∧
          leadsWith ['#'] (linkHref a) = false then
        .txt ('[' :: getTextStripped cs ++ ']' :: '(' :: linkHref a ++ [')'])
      else .elem t a (convertLinksL cs)
    else .elem t a (convertLinksL cs)

def convertLinksL : List Node → List Node
  | [] => []
  | n :: ns => convertLinksN n :: convertLinksL ns

end

def headTags : List (List Char) :=
  ["h1", "h2", "h3", "h4", "h5", "h6"].map String.toList

/-- Is this node a heading element (`soup.find_all(['h1', ..., 'h6'])`)? -/
def isHeading : Node → Bool
  | .elem t _ _ => t ∈ headTags
  | .txt _ => false

mutual

/-- Pass 4 inside one node: recurse into the children list. -/
def headingSpaceN : Node → Node
  | .txt s => .txt s
  | .elem t a cs => .elem t a (headingSpaceL cs)

/-- Pass 4: `insert_before('\n\n')` / `insert_after('\n')` around every
heading element, inserting text-node siblings into the parent's children. -/
def headingSpaceL : List Node → List Node
  | [] => []
  | n :: ns =>
    (if isHeading n then [.txt ['\n', '\n'], headingSpaceN n, .txt ['\n']]
     else [headingSpaceN n]) ++ headingSpaceL ns

end

/-- The boilerplate phrase list of pass 5, exactly as written in the source —
including the pattern `'why did I get this'` with an upper-case I. -/
def boilerPats : List (List Char) :=
  ["unsubscribe", "manage preferences", "update your preferences",
   "why did I get this", "sent to", "you received this email",
   "no longer want to receive", "email settings", "stop receiving"].map
    String.toList

/-- The per-text-node test of pass 5: some pattern occurs in the lower-cased
text, and the text is shorter than 100 characters. -/
def boilerText (s : List Char) : Bool :=
  boilerPats.any (fun p => hasSub p (lowerStr s)) && s.length < 100

/-- Does this children list contain a text node that triggers pass 5 (such a
text node's parent is decomposed)? -/
def hasBoilerChild (cs : List Node) : Bool :=
  cs.any (fun n =>
    match n with
    | .txt s => boilerText s
    | .elem _ _ _ => false)

mutual

/-- Pass 5: decompose every element having a direct text child whose
lower-cased content contains a boilerplate pattern and is shorter than 100
characters. -/
def removeBoilerN : Node → List Node
  | .txt s => [.txt s]
  | .elem t a cs =>
    if hasBoilerChild cs then [] else [.elem t a (removeBoilerL cs)]

def removeBoilerL : List Node → List Node
  | [] => []
  | n :: ns => removeBoilerN n ++ removeBoilerL ns

end

/-- Pass 5 at document level: a top-level text node's `parent` is the soup
object itself, so a matching top-level text decomposes the whole soup,
emptying the document. -/
def removeBoilerDoc (doc : List Node) : List Node :=
  if hasBoilerChild doc then [] else removeBoilerL doc

/-- Pass 6: `soup.get_text(separator='\n', strip=True)` — each descendant
string stripped, empty results skipped, the rest joined with newlines. -/
def getTextNl (doc : List Node) : List Char :=
  joinNl (((nodeTextsL doc).map pyStrip).filter (fun l => l ≠ []))

/-- The try-block body of `extract_main_content` after BeautifulSoup parsing:
the six passes in source order. -/
def extractPipeline (doc : List Node) : List Char :=
  getTextNl (removeBoilerDoc (headingSpaceL (convertLinksL (removeFooterL
    (removeTagsL doc)))))

/-- `extract_main_content` from src/newsletter.py: empty input yields `""`;
`parse` models the external BeautifulSoup front-end, `none` standing for an
exception inside the try block (caught, yielding `""`). -/
def extract_main_content (parse : List Char → Option (List Node))
    (html : List Char) : List Char :=
  if html = [] then []
  else
    match parse html with
    | none => []
    | some doc => extractPipeline doc

/-- The `html.parser` tree of `<div><p>why did i get this</p></div>`. -/
def exDocC2 : List Node :=
  [.elem "div".toList [] [.elem "p".toList [] [.txt "why did i get this".toList]]]

/-- The `html.parser` tree of `<div><p>please unsubscribe here</p></div>`. -/
def exDocC2u : List Node :=
  [.elem "div".toList [] [.elem "p".toList [] [.txt "please unsubscribe here".toList]]]

/-- Claim C2, evaluated on the code at the failing input: the boilerplate
pattern list contains `'why did I get this'` with an upper-case I, but is
matched against the lower-cased text, so that phrase can never match — the
short text node `"why did i get this"` survives the pipeline with its parent
intact, contrary to the claim; a lower-case pattern such as `'unsubscribe'`
does remove the parent, as the second conjunct shows. -/
theorem claim_C2_code_eval :
    extractPipeline exDocC2 = "why did i get this".toList ∧
    extractPipeline exDocC2u = [] := by
  constructor <;> decide

/-- The `html.parser` tree of `<a href="http://example.com">Click here</a>`. -/
def exDocC8 : List Node :=
  [.elem "a".toList [("href".toList, "http://example.com".toList)]
    [.txt "Click here".toList]]

/-- The `html.parser` tree of `<a href="#x">Jump</a>` (fragment href: the
anchor is left in place and only its text reaches the output). -/
def exDocC8f : List Node :=
  [.elem "a".toList [("href".toList, "#x".toList)] [.txt "Jump".toList]]

/-- Claim C8: an anchor with non-empty href not starting with '#' and
non-empty visible text is replaced by the inline text `[text](href)`; an
anchor failing any of these conditions is left in place, so only its plain
text (href discarded) reaches the flattened output; and the claim's concrete
example cleans to a string containing `[Click here](http://example.com)`. -/
theorem claim_C8_links (attrs : List (List Char × List Char)) (cs : List Node)
    (h1 : linkHref attrs ≠ []) (h2 : getTextStripped cs ≠ [])
    (h3 : leadsWith ['#'] (linkHref attrs) = false) :
    convertLinksN (.elem "a".toList attrs cs) =
      .txt ('[' :: getTextStripped cs ++ ']' :: '(' :: linkHref attrs ++ [')']) ∧
    (∀ (attrs' : List (List Char × List Char)) (cs' : List Node),
      ¬(linkHref attrs' ≠ [] ∧ getTextStripped cs' ≠ [] ∧
          leadsWith ['#'] (linkHref attrs') = false) →
      convertLinksN (.elem "a".toList attrs' cs') =
        .elem "a".toList attrs' (convertLinksL cs')) ∧
    hasSub "[Click here](http://example.com)".toList (extractPipeline exDocC8)
      = true ∧
    extractPipeline exDocC8f = "Jump".toList := by
  refine ⟨?_, ?_, by decide, by decide⟩
  · simp [convertLinksN, h1, h2, h3]
  · intro attrs' cs' h
    simp [convertLinksN, h]

/-- Witness for C8: the claim's anchor converts to the text node
`[Click here](http://example.com)`. -/
theorem claim_C8_witness :
    convertLinksN (.elem "a".toList
        [("href".toList, "http://example.com".toList)] [.txt "Click here".toList]) =
      .txt ('[' :: "Click here".toList ++ ']' :: '('
        :: "http://example.com".toList ++ [')']) :=
  (claim_C8_links [("href".toList, "http://example.com".toList)]
    [.txt "Click here".toList] (by decide) (by decide) (by decide)).1

theorem removeFooterL_append (xs ys : List Node) :
    removeFooterL (xs ++ ys) = removeFooterL xs ++ removeFooterL ys := by
  induction xs with
  | nil => simp [removeFooterL]
  | cons n ns ih => simp [removeFooterL, ih]

/-- The `html.parser` tree of
`<div class="footer"><a href="http://x">Unsubscribe</a></div><p>Real content</p>`. -/
def exDocC9 : List Node :=
  [.elem "div".toList [("class".toList, "footer".toList)]
    [.elem "a".toList [("href".toList, "http://x".toList)]
      [.txt "Unsubscribe".toList]],
   .elem "p".toList [] [.txt "Real content".toList]]

/-- Claim C9: any element whose class or id attribute case-insensitively
contains one of footer/unsubscribe/social/share/preference is removed
wholesale with all its descendants, wherever it sits among its siblings; and
the claim's concrete example cleans to a string containing "Real content" and
not containing "Unsubscribe". -/
theorem claim_C9_footer_removal (t : List Char)
    (attrs : List (List Char × List Char)) (cs : List Node)
    (pre post : List Node) (h : matchesFooterPat attrs = true) :
    removeFooterL (pre ++ .elem t attrs cs :: post)
      = removeFooterL pre ++ removeFooterL post ∧
    hasSub "Real content".toList (extractPipeline exDocC9) = true ∧
    hasSub "Unsubscribe".toList (extractPipeline exDocC9) = false := by
  refine ⟨?_, by decide, by decide⟩
  rw [removeFooterL_append]
  simp [removeFooterL, removeFooterN, h]

/-- Witness for C9: a div whose class is "Page-Footer" (case-insensitive
match of "footer") is removed together with its text child. -/
theorem claim_C9_witness :
    removeFooterL ([Node.txt "x".toList] ++
        Node.elem "div".toList [("class".toList, "Page-Footer".toList)]
          [Node.txt "gone".toList] :: [Node.txt "y".toList])
      = removeFooterL [Node.txt "x".toList] ++ removeFooterL [Node.txt "y".toList] :=
  (claim_C9_footer_removal "div".toList
    [("class".toList, "Page-Footer".toList)] [Node.txt "gone".toList]
    [Node.txt "x".toList] [Node.txt "y".toList] (by decide)).1

/-! ## Content Cleaner, whitespace pass and length cap
(src/newsletter.py, `clean_email_content`) -/

/-- The `for line in lines` loop of `clean_email_content`: strip each line;
a non-blank line is kept, and of every run of blank lines only the first is
kept (tracked by `prev_empty`). -/
def cleanLines : List (List Char) → Bool → List (List Char)
  | [], _ => []
  | l :: ls, prevEmpty =>
    if pyStrip l = [] then
      if prevEmpty then cleanLines ls true
      else [] :: cleanLines ls true
    else pyStrip l :: cleanLines ls false

/-- The whitespace normalization of `clean_email_content`: split on newlines,
strip each line, collapse blank-line runs, rejoin with newlines, collapse
space runs. -/
def normalizeWs (content : List Char) : List Char :=
  collapseSpaces (joinNl (cleanLines (splitNl content) false))

def max_length : Nat := 50000

def truncationMarker : List Char := "\n\n[Content truncated for length...]".toList

/-- `clean_email_content` from src/newsletter.py: select the HTML rendition
(through `extract_main_content`) whenever `html_content` is non-empty,
otherwise the plain text; empty selected content short-circuits to `""`;
then the whitespace pass, the hard cap at `max_length` characters with the
literal truncation marker appended (the marker itself not counted against
the cap), and a final `strip()` of the result. -/
def clean_email_content (parse : List Char → Option (List Node))
    (html_content plain_content : List Char) : List Char :=
  let content := if html_content ≠ [] then extract_main_content parse html_content
                 else plain_content
  if content = [] then []
  else
    let cleaned := normalizeWs content
    let capped := if max_length < cleaned.length
                  then cleaned.take max_length ++ truncationMarker
                  else cleaned
    pyStrip capped

/-- Claim C7: when the html rendition is non-empty, `clean_email_content`
selects it; if the HTML pipeline then fails (parse error) or yields empty
text, the function returns the empty string for every value of the plain
argument — it never falls back to the plain-text rendition. -/
theorem claim_C7_no_plain_fallback (parse : List Char → Option (List Node))
    (html plain : List Char) (hh : html ≠ [])
    (he : extract_main_content parse html = []) :
    clean_email_content parse html plain = [] := by
  simp [clean_email_content, hh, he]

/-- Witness for C7: unparseable non-empty HTML with non-empty plain text
still cleans to the empty string. -/
theorem claim_C7_witness :
    clean_email_content (fun _ => none) "<".toList "hello".toList = [] :=
  claim_C7_no_plain_fallback (fun _ => none) "<".toList "hello".toList
    (by decide) (by decide)

/-! Helper lemmas about the string primitives, used for the length-cap and
idempotence claims. -/

theorem frontStrip_cons_of_false (c : Char) (l : List Char)
    (hc : isPySpace c = false) : frontStrip (c :: l) = c :: l := by
  simp [frontStrip, List.dropWhile_cons, hc]

theorem frontStrip_append_of_fixed (l z : List Char) (hl : l ≠ [])
    (hfix : frontStrip l = l) : frontStrip (l ++ z) = l ++ z := by
  cases l with
  | nil => exact absurd rfl hl
  | cons c cl =>
    have hc : isPySpace c = false := by
      by_contra h
      have hc' : isPySpace c = true := by
        cases hh : isPySpace c
        · exact absurd hh h
        · rfl
      have : frontStrip (c :: cl) = frontStrip cl := by
        simp [frontStrip, List.dropWhile_cons, hc']
      rw [this] at hfix
      have hlen : (frontStrip cl).length ≤ cl.length :=
        (List.dropWhile_sublist _).length_le
      rw [hfix] at hlen
      simp at hlen
    simp only [List.cons_append]
    exact frontStrip_cons_of_false c (cl ++ z) hc

theorem frontStrip_replicate (n : Nat) (c : Char) (hc : isPySpace c = false) :
    frontStrip (List.replicate n c) = List.replicate n c := by
  cases n with
  | zero => rfl
  | succ m =>
    rw [List.replicate_succ]
    exact frontStrip_cons_of_false c _ hc

theorem pyStrip_eq_self (s : List Char) (hf : frontStrip s = s)
    (hb : frontStrip s.reverse = s.reverse) : pyStrip s = s := by
  unfold pyStrip
  rw [hf]
  have : List.dropWhile isPySpace s.reverse = s.reverse := hb
  rw [this, List.reverse_reverse]

theorem pyStrip_replicate (n : Nat) (c : Char) (hc : isPySpace c = false) :
    pyStrip (List.replicate n c) = List.replicate n c := by
  refine pyStrip_eq_self _ (frontStrip_replicate n c hc) ?_
  rw [List.reverse_replicate]
  exact frontStrip_replicate n c hc

theorem splitNl_no_nl (s : List Char) (h : '\n' ∉ s) : splitNl s = [s] := by
  induction s with
  | nil => rfl
  | cons c rest ih =>
    have hc : c ≠ '\n' := fun hc => h (hc ▸ List.mem_cons_self c rest)
    have hr : '\n' ∉ rest := fun hr => h (List.mem_cons_of_mem c hr)
    rw [splitNl]
    simp [hc, ih hr]

theorem collapse_cons_cons_of_not (c d : Char) (l : List Char)
    (h : ¬(c = ' ' ∧ d = ' ')) :
    collapseSpaces (c :: d :: l) = c :: collapseSpaces (d :: l) := by
  rw [collapseSpaces]
  simp [h]

theorem collapse_cons_of_ne_space (c : Char) (l : List Char) (hc : c ≠ ' ') :
    collapseSpaces (c :: l) = c :: collapseSpaces l := by
  cases l with
  | nil => rfl
  | cons d l' => exact collapse_cons_cons_of_not c d l' (fun h => hc h.1)

theorem collapse_replicate_append (n : Nat) (c : Char) (hc : c ≠ ' ')
    (l : List Char) :
    collapseSpaces (List.replicate n c ++ l) =
      List.replicate n c ++ collapseSpaces l := by
  induction n with
  | zero => simp
  | succ m ih =>
    rw [List.replicate_succ, List.cons_append,
      collapse_cons_of_ne_space c _ hc, ih]
    simp

theorem collapse_nil : collapseSpaces [] = [] := rfl

theorem collapse_replicate (n : Nat) (c : Char) (hc : c ≠ ' ') :
    collapseSpaces (List.replicate n c) = List.replicate n c := by
  have h := collapse_replicate_append n c hc []
  simp only [collapse_nil, List.append_nil] at h
  exact h

theorem joinNl_single (l : List Char) : joinNl [l] = l := rfl

theorem normalizeWs_nil : normalizeWs [] = [] := by decide

theorem replicate_ne_nil (n : Nat) (c : Char) (hn : n ≠ 0) :
    List.replicate n c ≠ [] := by
  intro h
  have := congrArg List.length h
  rw [List.length_replicate, List.length_nil] at this
  exact hn this

theorem normalizeWs_replicate_x :
    normalizeWs (List.replicate 60000 'x') = List.replicate 60000 'x' := by
  have hne : List.replicate 60000 'x' ≠ [] := replicate_ne_nil _ _ (by omega)
  have h1 : splitNl (List.replicate 60000 'x') = [List.replicate 60000 'x'] :=
    splitNl_no_nl _ (by
      intro h
      rw [List.mem_replicate] at h
      exact absurd h.2 (by decide))
  have h2 : pyStrip (List.replicate 60000 'x') = List.replicate 60000 'x' :=
    pyStrip_replicate _ _ (by decide)
  unfold normalizeWs
  rw [h1, cleanLines, h2, if_neg hne, cleanLines, joinNl_single]
  exact collapse_replicate _ _ (by decide)

theorem marker_reverse_fixed :
    frontStrip truncationMarker.reverse = truncationMarker.reverse := by decide

/-- Claim C6: whenever the normalized text exceeds the 50,000-character cap,
`clean_email_content` truncates it to exactly `max_length` characters and
appends the literal marker (not itself subject to the cap); in particular a
plain input of 60,000 'x' characters cleans to exactly the first 50,000 'x'
characters followed by the marker. -/
theorem claim_C6_truncation :
    (∀ (parse : List Char → Option (List Node)) (x : List Char),
      max_length < (normalizeWs x).length →
      clean_email_content parse [] x
        = pyStrip ((normalizeWs x).take max_length ++ truncationMarker)) ∧
    clean_email_content (fun _ => none) [] (List.replicate 60000 'x')
      = List.replicate 50000 'x' ++ truncationMarker := by
  have hgen : ∀ (parse : List Char → Option (List Node)) (x : List Char),
      max_length < (normalizeWs x).length →
      clean_email_content parse [] x
        = pyStrip ((normalizeWs x).take max_length ++ truncationMarker) := by
    intro parse x hx
    have hxne : x ≠ [] := by
      intro h
      rw [h, normalizeWs_nil] at hx
      simp [max_length] at hx
    simp [clean_email_content, hxne, hx]
  refine ⟨hgen, ?_⟩
  rw [hgen (fun _ => none) _ (by rw [normalizeWs_replicate_x, List.length_replicate]; decide)]
  rw [normalizeWs_replicate_x, List.take_replicate]
  have hmin : min max_length 60000 = 50000 := by decide
  rw [hmin]
  refine pyStrip_eq_self _ ?_ ?_
  · exact frontStrip_append_of_fixed _ _ (replicate_ne_nil _ _ (by omega))
      (frontStrip_replicate _ _ (by decide))
  · rw [List.reverse_append, List.reverse_replicate]
    exact frontStrip_append_of_fixed _ _ (by decide) marker_reverse_fixed

/-- Witness for C6: the general cap equation applied at the concrete
60,000-'x' input. -/
theorem claim_C6_witness :
    clean_email_content (fun _ => none) [] (List.replicate 60000 'x')
      = pyStrip ((normalizeWs (List.replicate 60000 'x')).take max_length
          ++ truncationMarker) :=
  claim_C6_truncation.1 (fun _ => none) (List.replicate 60000 'x')
    (by rw [normalizeWs_replicate_x, List.length_replicate]; decide)

/-! ## Idempotence machinery for the whitespace pass (claim C3):
properties of `pyStrip`, `splitNl`, `joinNl` and `collapseSpaces`. -/

theorem frontStrip_cons_of_true (c : Char) (t : List Char)
    (hc : isPySpace c = true) : frontStrip (c :: t) = frontStrip t := by
  simp [frontStrip, List.dropWhile_cons, hc]

theorem frontStrip_idem (s : List Char) : frontStrip (frontStrip s) = frontStrip s := by
  induction s with
  | nil => rfl
  | cons c t ih =>
    cases hc : isPySpace c with
    | true => rw [frontStrip_cons_of_true c t hc, ih]
    | false =>
      rw [frontStrip_cons_of_false c t hc]
      exact frontStrip_cons_of_false c t hc

theorem dropWhile_suffix_decomp (p : Char → Bool) :
    ∀ l : List Char, ∃ w, l = w ++ l.dropWhile p := by
  intro l
  induction l with
  | nil => exact ⟨[], rfl⟩
  | cons c t ih =>
    cases hc : p c with
    | true =>
      rcases ih with ⟨w, hw⟩
      refine ⟨c :: w, ?_⟩
      rw [List.dropWhile_cons, if_pos (by simp [hc])]
      rw [List.cons_append, ← hw]
    | false =>
      exact ⟨[], by rw [List.dropWhile_cons, if_neg (by simp [hc])]; rfl⟩

theorem frontStrip_of_append_fixed (a b : List Char)
    (h : frontStrip (a ++ b) = a ++ b) : frontStrip a = a := by
  cases a with
  | nil => rfl
  | cons c a' =>
    cases hc : isPySpace c with
    | false => exact frontStrip_cons_of_false c a' hc
    | true =>
      exfalso
      rw [List.cons_append, frontStrip_cons_of_true c (a' ++ b) hc] at h
      have hlen : (frontStrip (a' ++ b)).length ≤ (a' ++ b).length :=
        (List.dropWhile_sublist _).length_le
      rw [h] at hlen
      simp at hlen

theorem head?_append_left (a b : List Char) (c : Char) (h : a.head? = some c) :
    (a ++ b).head? = some c := by
  cases a with
  | nil => cases h
  | cons x t => simpa using h

theorem dropWhile_head?_false (p : Char → Bool) :
    ∀ (l : List Char) (c : Char), (l.dropWhile p).head? = some c → p c = false := by
  intro l
  induction l with
  | nil => intro c h; cases h
  | cons x t ih =>
    intro c h
    cases hx : p x with
    | true =>
      rw [List.dropWhile_cons, if_pos (by simp [hx])] at h
      exact ih c h
    | false =>
      rw [List.dropWhile_cons, if_neg (by simp [hx])] at h
      simp at h
      rw [← h]
      exact hx

theorem pyStrip_prefix_decomp (s : List Char) :
    ∃ u, frontStrip s = pyStrip s ++ u := by
  rcases dropWhile_suffix_decomp isPySpace (frontStrip s).reverse with ⟨w, hw⟩
  refine ⟨w.reverse, ?_⟩
  have h2 := congrArg List.reverse hw
  rw [List.reverse_reverse, List.reverse_append] at h2
  exact h2

theorem pyStrip_head?_false (s : List Char) (c : Char)
    (h : (pyStrip s).head? = some c) : isPySpace c = false := by
  rcases pyStrip_prefix_decomp s with ⟨u, hu⟩
  have h2 : (frontStrip s).head? = some c := by
    rw [hu]; exact head?_append_left _ _ _ h
  exact dropWhile_head?_false isPySpace s c h2

theorem pyStrip_getLast?_false (s : List Char) (c : Char)
    (h : (pyStrip s).getLast? = some c) : isPySpace c = false := by
  have h1 : (pyStrip s).reverse.head? = some c := by
    rw [List.head?_reverse]; exact h
  have h2 : ((frontStrip s).reverse.dropWhile isPySpace).head? = some c := by
    have hr : (pyStrip s).reverse = (frontStrip s).reverse.dropWhile isPySpace := by
      unfold pyStrip
      rw [List.reverse_reverse]
    rw [← hr]; exact h1
  exact dropWhile_head?_false isPySpace _ c h2

theorem pyStrip_fixed_of_ends (s : List Char)
    (hh : ∀ c, s.head? = some c → isPySpace c = false)
    (hl : ∀ c, s.getLast? = some c → isPySpace c = false) : pyStrip s = s := by
  cases s with
  | nil => rfl
  | cons c t =>
    refine pyStrip_eq_self _ ?_ ?_
    · exact frontStrip_cons_of_false c t (hh c rfl)
    · cases hr : (c :: t).reverse with
      | nil =>
        exfalso
        have := congrArg List.length hr
        simp at this
      | cons c' u =>
        refine frontStrip_cons_of_false c' u (hl c' ?_)
        rw [← List.head?_reverse, hr]
        rfl

theorem pyStrip_idem (s : List Char) : pyStrip (pyStrip s) = pyStrip s :=
  pyStrip_fixed_of_ends _ (pyStrip_head?_false s) (pyStrip_getLast?_false s)

theorem fixed_head?_false (l : List Char) (hfix : pyStrip l = l) (c : Char)
    (h : l.head? = some c) : isPySpace c = false := by
  rw [← hfix] at h
  exact pyStrip_head?_false l c h

theorem fixed_getLast?_false (l : List Char) (hfix : pyStrip l = l) (c : Char)
    (h : l.getLast? = some c) : isPySpace c = false := by
  rw [← hfix] at h
  exact pyStrip_getLast?_false l c h

theorem frontStrip_of_fixed (l : List Char) (hfix : pyStrip l = l) :
    frontStrip l = l := by
  cases l with
  | nil => rfl
  | cons c t => exact frontStrip_cons_of_false c t (fixed_head?_false _ hfix c rfl)

theorem length_pyStrip_le (s : List Char) : (pyStrip s).length ≤ s.length := by
  have h1 : (frontStrip s).length ≤ s.length := (List.dropWhile_sublist _).length_le
  have h2 : ((frontStrip s).reverse.dropWhile isPySpace).length
      ≤ (frontStrip s).reverse.length := (List.dropWhile_sublist _).length_le
  rw [List.length_reverse] at h2
  unfold pyStrip
  rw [List.length_reverse]
  omega

theorem mem_pyStrip (s : List Char) (a : Char) (h : a ∈ pyStrip s) : a ∈ s := by
  unfold pyStrip at h
  rw [List.mem_reverse] at h
  have h1 := (List.dropWhile_sublist _).subset h
  rw [List.mem_reverse] at h1
  have h2 : a ∈ frontStrip s := h1
  exact (List.dropWhile_sublist _).subset h2

theorem splitNl_ne_nil (s : List Char) : splitNl s ≠ [] := by
  cases s with
  | nil => exact fun h => List.noConfusion h
  | cons c t =>
    rw [splitNl]
    by_cases hc : c = '\n'
    · rw [if_pos hc]; exact fun h => List.noConfusion h
    · rw [if_neg hc]
      cases hst : splitNl t with
      | nil => exact fun h => List.noConfusion h
      | cons l ls => exact fun h => List.noConfusion h

theorem splitNl_mem_no_nl : ∀ (s : List Char) (l : List Char),
    l ∈ splitNl s → '\n' ∉ l := by
  intro s
  induction s with
  | nil =>
    intro l hl
    have : l = [] := by simpa [splitNl] using hl
    subst this
    simp
  | cons c t ih =>
    intro l hl
    rw [splitNl] at hl
    by_cases hc : c = '\n'
    · rw [if_pos hc] at hl
      rcases List.mem_cons.mp hl with h1 | h1
      · subst h1; simp
      · exact ih l h1
    · rw [if_neg hc] at hl
      cases hst : splitNl t with
      | nil => exact absurd hst (splitNl_ne_nil t)
      | cons l₀ ls =>
        rw [hst] at hl
        rcases List.mem_cons.mp hl with h1 | h1
        · subst h1
          intro hmem
          rcases List.mem_cons.mp hmem with h2 | h2
          · exact hc h2.symm
          · exact ih l₀ (by rw [hst]; exact List.mem_cons_self _ _) h2
        · exact ih l (by rw [hst]; exact List.mem_cons_of_mem _ h1)

theorem splitNl_append (a b : List Char) (ha : '\n' ∉ a) (l : List Char)
    (ls : List (List Char)) (hb : splitNl b = l :: ls) :
    splitNl (a ++ b) = (a ++ l) :: ls := by
  induction a with
  | nil => simpa using hb
  | cons c a' ih =>
    have hc : c ≠ '\n' := fun h => ha (h ▸ List.mem_cons_self c a')
    have ha' : '\n' ∉ a' := fun h => ha (List.mem_cons_of_mem c h)
    rw [List.cons_append, splitNl, if_neg hc, ih ha']
    simp

theorem joinNl_cons_cons (l l₂ : List Char) (t : List (List Char)) :
    joinNl (l :: l₂ :: t) = l ++ '\n' :: joinNl (l₂ :: t) := rfl

theorem splitNl_joinNl : ∀ M : List (List Char), M ≠ [] →
    (∀ l ∈ M, '\n' ∉ l) → splitNl (joinNl M) = M := by
  intro M
  induction M with
  | nil => intro h; exact absurd rfl h
  | cons l rest ih =>
    intro _ hnl
    cases rest with
    | nil =>
      rw [joinNl_single]
      exact splitNl_no_nl l (hnl l (List.mem_cons_self _ _))
    | cons l₂ t =>
      rw [joinNl_cons_cons]
      have h2 : splitNl ('\n' :: joinNl (l₂ :: t))
          = [] :: splitNl (joinNl (l₂ :: t)) := by
        rw [splitNl, if_pos rfl]
      rw [splitNl_append l ('\n' :: joinNl (l₂ :: t))
        (hnl l (List.mem_cons_self _ _)) [] (splitNl (joinNl (l₂ :: t))) h2,
        List.append_nil]
      rw [ih (by simp) (fun x hx => hnl x (List.mem_cons_of_mem _ hx))]

/-- No two adjacent spaces (the normal form of `collapseSpaces`). -/
def noDbl (s : List Char) : Prop :=
  List.Chain' (fun a b => ¬(a = ' ' ∧ b = ' ')) s

theorem collapse_sublist : ∀ s : List Char, List.Sublist (collapseSpaces s) s := by
  intro s
  induction s with
  | nil => exact List.Sublist.refl _
  | cons c t ih =>
    cases t with
    | nil => exact List.Sublist.refl _
    | cons d r =>
      rw [collapseSpaces]
      by_cases h : c = ' ' ∧ d = ' '
      · rw [if_pos h]
        exact ih.trans (List.sublist_cons_self c (d :: r))
      · rw [if_neg h]
        exact ih.cons₂ c

theorem mem_collapse (s : List Char) (a : Char) (h : a ∈ collapseSpaces s) :
    a ∈ s := (collapse_sublist s).subset h

theorem collapse_ne_nil : ∀ s : List Char, s ≠ [] → collapseSpaces s ≠ [] := by
  intro s
  induction s with
  | nil => intro h; exact absurd rfl h
  | cons c t ih =>
    intro _
    cases t with
    | nil => exact fun h => List.noConfusion h
    | cons d r =>
      rw [collapseSpaces]
      by_cases h : c = ' ' ∧ d = ' '
      · rw [if_pos h]; exact ih (by simp)
      · rw [if_neg h]; exact fun hh => List.noConfusion hh

theorem collapse_head? : ∀ s : List Char, (collapseSpaces s).head? = s.head? := by
  intro s
  induction s with
  | nil => rfl
  | cons c t ih =>
    cases t with
    | nil => rfl
    | cons d r =>
      rw [collapseSpaces]
      by_cases h : c = ' ' ∧ d = ' '
      · rw [if_pos h, ih]
        simp [h.1, h.2]
      · rw [if_neg h]
        rfl

theorem collapse_getLast? : ∀ s : List Char,
    (collapseSpaces s).getLast? = s.getLast? := by
  intro s
  induction s with
  | nil => rfl
  | cons c t ih =>
    cases t with
    | nil => rfl
    | cons d r =>
      rw [collapseSpaces]
      by_cases h : c = ' ' ∧ d = ' '
      · rw [if_pos h, ih, List.getLast?_cons_cons]
      · rw [if_neg h]
        cases hc2 : collapseSpaces (d :: r) with
        | nil => exact absurd hc2 (collapse_ne_nil _ (by simp))
        | cons e u =>
          rw [List.getLast?_cons_cons, ← hc2, ih, List.getLast?_cons_cons]

theorem collapse_noDbl : ∀ s : List Char, noDbl (collapseSpaces s) := by
  intro s
  induction s with
  | nil => exact List.chain'_nil
  | cons c t ih =>
    cases t with
    | nil => exact List.chain'_singleton c
    | cons d r =>
      rw [collapseSpaces]
      by_cases h : c = ' ' ∧ d = ' '
      · rw [if_pos h]; exact ih
      · rw [if_neg h]
        rw [noDbl, List.chain'_cons']
        refine ⟨?_, ih⟩
        intro y hy
        rw [collapse_head?] at hy
        simp at hy
        subst hy
        exact h

theorem collapse_of_noDbl : ∀ s : List Char, noDbl s → collapseSpaces s = s := by
  intro s
  induction s with
  | nil => intro _; rfl
  | cons c t ih =>
    intro h
    cases t with
    | nil => rfl
    | cons d r =>
      rw [collapseSpaces]
      rw [noDbl, List.chain'_cons] at h
      rw [if_neg h.1, ih h.2]

theorem collapse_idem (s : List Char) :
    collapseSpaces (collapseSpaces s) = collapseSpaces s :=
  collapse_of_noDbl _ (collapse_noDbl s)

theorem collapse_stripFixed (l : List Char) (hfix : pyStrip l = l) :
    pyStrip (collapseSpaces l) = collapseSpaces l := by
  refine pyStrip_fixed_of_ends _ ?_ ?_
  · intro c h
    rw [collapse_head?] at h
    exact fixed_head?_false l hfix c h
  · intro c h
    rw [collapse_getLast?] at h
    exact fixed_getLast?_false l hfix c h

theorem noDbl_reverse (l : List Char) (h : noDbl l) : noDbl l.reverse := by
  rw [noDbl, List.chain'_reverse]
  exact h.imp (fun a b hab hc => hab ⟨hc.2, hc.1⟩)

theorem eq_nil_of_collapse_eq_nil (a : List Char) (h : collapseSpaces a = []) :
    a = [] := by
  by_contra h'
  exact collapse_ne_nil a h' h

/-- At most one blank piece in any adjacent pair of lines. -/
def noTwoBlank (M : List (List Char)) : Prop :=
  List.Chain' (fun a b => ¬(a = [] ∧ b = [])) M

theorem cleanLines_nil (b : Bool) : cleanLines [] b = [] := rfl

theorem cleanLines_cons_blank_true (l₀ : List Char) (ls : List (List Char))
    (h0 : pyStrip l₀ = []) : cleanLines (l₀ :: ls) true = cleanLines ls true := by
  rw [cleanLines, if_pos h0]
  rfl

theorem cleanLines_cons_blank_false (l₀ : List Char) (ls : List (List Char))
    (h0 : pyStrip l₀ = []) :
    cleanLines (l₀ :: ls) false = [] :: cleanLines ls true := by
  rw [cleanLines, if_pos h0]
  rfl

theorem cleanLines_cons_of_ne (l₀ : List Char) (ls : List (List Char)) (b : Bool)
    (h0 : pyStrip l₀ ≠ []) :
    cleanLines (l₀ :: ls) b = pyStrip l₀ :: cleanLines ls false := by
  rw [cleanLines, if_neg h0]

theorem cleanLines_mem : ∀ (L : List (List Char)) (b : Bool) (l : List Char),
    l ∈ cleanLines L b → l = [] ∨ ∃ l₀ ∈ L, l = pyStrip l₀ := by
  intro L
  induction L with
  | nil =>
    intro b l h
    rw [cleanLines_nil] at h
    cases h
  | cons l₀ ls ih =>
    intro b l h
    by_cases h0 : pyStrip l₀ = []
    · cases b with
      | true =>
        rw [cleanLines_cons_blank_true l₀ ls h0] at h
        rcases ih true l h with h1 | ⟨x, hx, he⟩
        · exact Or.inl h1
        · exact Or.inr ⟨x, List.mem_cons_of_mem _ hx, he⟩
      | false =>
        rw [cleanLines_cons_blank_false l₀ ls h0] at h
        rcases List.mem_cons.mp h with h1 | h1
        · exact Or.inl h1
        · rcases ih true l h1 with h2 | ⟨x, hx, he⟩
          · exact Or.inl h2
          · exact Or.inr ⟨x, List.mem_cons_of_mem _ hx, he⟩
    · rw [cleanLines_cons_of_ne l₀ ls b h0] at h
      rcases List.mem_cons.mp h with h1 | h1
      · exact Or.inr ⟨l₀, List.mem_cons_self _ _, h1⟩
      · rcases ih false l h1 with h2 | ⟨x, hx, he⟩
        · exact Or.inl h2
        · exact Or.inr ⟨x, List.mem_cons_of_mem _ hx, he⟩

theorem cleanLines_chain : ∀ (L : List (List Char)) (b : Bool),
    noTwoBlank (cleanLines L b) ∧
      (b = true → (cleanLines L b).head? ≠ some []) := by
  intro L
  induction L with
  | nil =>
    intro b
    exact ⟨List.chain'_nil, fun _ => by rw [cleanLines_nil]; exact fun h => Option.noConfusion h⟩
  | cons l₀ ls ih =>
    intro b
    by_cases h0 : pyStrip l₀ = []
    · cases b with
      | true =>
        rw [cleanLines_cons_blank_true l₀ ls h0]
        exact ⟨(ih true).1, fun _ => (ih true).2 rfl⟩
      | false =>
        rw [cleanLines_cons_blank_false l₀ ls h0]
        constructor
        · rw [noTwoBlank, List.chain'_cons']
          refine ⟨?_, (ih true).1⟩
          intro y hy hcontra
          apply (ih true).2 rfl
          rw [hcontra.2] at hy
          cases hhy : (cleanLines ls true).head? with
          | none => rw [hhy] at hy; cases hy
          | some z =>
            rw [hhy] at hy
            have : z = [] := by simpa using hy
            rw [this]
        · intro h
          cases h
    · rw [cleanLines_cons_of_ne l₀ ls b h0]
      constructor
      · rw [noTwoBlank, List.chain'_cons']
        refine ⟨?_, (ih false).1⟩
        intro y _ hcontra
        exact h0 hcontra.1
      · intro _
        intro hc
        have : pyStrip l₀ = [] := by simpa using hc
        exact h0 this

theorem cleanLines_id : ∀ (M : List (List Char)) (b : Bool),
    (∀ l ∈ M, pyStrip l = l) → noTwoBlank M →
    (b = true → M.head? ≠ some []) → cleanLines M b = M := by
  intro M
  induction M with
  | nil => intro b _ _ _; rfl
  | cons l ls ih =>
    intro b hf hnb hh
    have hfl : pyStrip l = l := hf l (List.mem_cons_self _ _)
    by_cases hl : l = []
    · subst hl
      cases b with
      | true => exact absurd rfl (hh rfl)
      | false =>
        rw [cleanLines_cons_blank_false [] ls rfl]
        congr 1
        refine ih true (fun x hx => hf x (List.mem_cons_of_mem _ hx))
          ((List.chain'_cons'.mp hnb).2) ?_
        intro _ hcontra
        cases hls : ls.head? with
        | none => rw [hls] at hcontra; cases hcontra
        | some z =>
          rw [hls] at hcontra
          have hz : z = [] := by simpa using hcontra
          exact (List.chain'_cons'.mp hnb).1 z (by rw [hls]; rfl) ⟨rfl, hz⟩
    · have h0 : pyStrip l ≠ [] := by rw [hfl]; exact hl
      rw [cleanLines_cons_of_ne l ls b h0, hfl]
      congr 1
      exact ih false (fun x hx => hf x (List.mem_cons_of_mem _ hx))
        ((List.chain'_cons'.mp hnb).2) (by simp)

theorem cleanLines_ne_nil (L : List (List Char)) (hL : L ≠ []) :
    cleanLines L false ≠ [] := by
  cases L with
  | nil => exact absurd rfl hL
  | cons l ls =>
    by_cases h0 : pyStrip l = []
    · rw [cleanLines_cons_blank_false l ls h0]
      exact fun h => List.noConfusion h
    · rw [cleanLines_cons_of_ne l ls false h0]
      exact fun h => List.noConfusion h

theorem collapse_append_nl : ∀ a b : List Char,
    collapseSpaces (a ++ '\n' :: b) = collapseSpaces a ++ '\n' :: collapseSpaces b := by
  intro a b
  induction a with
  | nil =>
    rw [List.nil_append]
    exact collapse_cons_of_ne_space '\n' b (by decide)
  | cons c a' ih =>
    cases a' with
    | nil =>
      rw [List.cons_append, List.nil_append]
      rw [collapse_cons_cons_of_not c '\n' b (fun h => by cases h.2)]
      rw [collapse_cons_of_ne_space '\n' b (by decide)]
      rfl
    | cons d t =>
      rw [List.cons_append]
      have hdt : (d :: t) ++ '\n' :: b = d :: (t ++ '\n' :: b) := rfl
      by_cases h : c = ' ' ∧ d = ' '
      · rw [show c :: (d :: t ++ '\n' :: b) = c :: d :: (t ++ '\n' :: b) from rfl]
        rw [collapseSpaces, if_pos h]
        rw [show (d : Char) :: (t ++ '\n' :: b) = (d :: t) ++ '\n' :: b from rfl, ih]
        rw [collapseSpaces, if_pos h]
      · rw [show c :: (d :: t ++ '\n' :: b) = c :: d :: (t ++ '\n' :: b) from rfl]
        rw [collapseSpaces, if_neg h]
        rw [show (d : Char) :: (t ++ '\n' :: b) = (d :: t) ++ '\n' :: b from rfl, ih]
        rw [collapseSpaces, if_neg h]
        rfl

theorem collapse_joinNl : ∀ M : List (List Char),
    collapseSpaces (joinNl M) = joinNl (M.map collapseSpaces) := by
  intro M
  induction M with
  | nil => rfl
  | cons l rest ih =>
    cases rest with
    | nil => rfl
    | cons l₂ t =>
      rw [joinNl_cons_cons, collapse_append_nl, ih]
      rfl

theorem map_collapse_id : ∀ M : List (List Char),
    (∀ l ∈ M, collapseSpaces l = l) → M.map collapseSpaces = M := by
  intro M
  induction M with
  | nil => intro _; rfl
  | cons l rest ih =>
    intro h
    rw [List.map_cons, h l (List.mem_cons_self _ _),
      ih (fun x hx => h x (List.mem_cons_of_mem _ hx))]

theorem joinNl_append_single : ∀ (A : List (List Char)) (a : List Char),
    A ≠ [] → joinNl (A ++ [a]) = joinNl A ++ '\n' :: a := by
  intro A
  induction A with
  | nil => intro a h; exact absurd rfl h
  | cons b A' ih =>
    intro a _
    cases A' with
    | nil => rfl
    | cons b₂ A'' =>
      have h1 : (b :: b₂ :: A'') ++ [a] = b :: ((b₂ :: A'') ++ [a]) := rfl
      rw [h1]
      have h2 : (b₂ :: A'') ++ [a] = b₂ :: (A'' ++ [a]) := rfl
      rw [h2, joinNl_cons_cons, ← h2, ih a (by simp), joinNl_cons_cons]
      simp

theorem reverse_joinNl : ∀ M : List (List Char),
    (joinNl M).reverse = joinNl (M.reverse.map List.reverse) := by
  intro M
  induction M with
  | nil => rfl
  | cons l rest ih =>
    cases rest with
    | nil => rfl
    | cons l₂ t =>
      rw [joinNl_cons_cons, List.reverse_append, List.reverse_cons, ih]
      have hA : (l₂ :: t).reverse.map List.reverse ≠ [] := by simp
      rw [show (l :: l₂ :: t).reverse = (l₂ :: t).reverse ++ [l] by simp]
      rw [List.map_append, show List.map List.reverse [l] = [l.reverse] from rfl]
      rw [joinNl_append_single _ _ hA]
      simp

theorem noTwoBlank_map_collapse (M : List (List Char)) (h : noTwoBlank M) :
    noTwoBlank (M.map collapseSpaces) := by
  rw [noTwoBlank, List.chain'_map]
  refine h.imp ?_
  intro a b hab hc
  exact hab ⟨eq_nil_of_collapse_eq_nil a hc.1, eq_nil_of_collapse_eq_nil b hc.2⟩

theorem noTwoBlank_reverse_map (M : List (List Char)) (h : noTwoBlank M) :
    noTwoBlank (M.reverse.map List.reverse) := by
  rw [noTwoBlank, List.chain'_map, List.chain'_reverse]
  refine h.imp ?_
  intro a b hab hc
  refine hab ⟨?_, ?_⟩
  · simpa using hc.2
  · simpa using hc.1

/-- The normal form of the whitespace pass at the line level: every piece is
strip-fixed, newline-free and space-collapsed, and no two adjacent pieces are
blank. -/
def TidyNF (M : List (List Char)) : Prop :=
  (∀ l ∈ M, pyStrip l = l) ∧ (∀ l ∈ M, '\n' ∉ l) ∧
    (∀ l ∈ M, collapseSpaces l = l) ∧ noTwoBlank M

theorem fixed_reverse (l : List Char) (h : pyStrip l = l) :
    pyStrip l.reverse = l.reverse := by
  refine pyStrip_fixed_of_ends _ ?_ ?_
  · intro c hc
    rw [List.head?_reverse] at hc
    exact fixed_getLast?_false l h c hc
  · intro c hc
    rw [List.getLast?_reverse] at hc
    exact fixed_head?_false l h c hc

theorem noDbl_of_collapse_fixed (l : List Char) (h : collapseSpaces l = l) :
    noDbl l := by
  rw [← h]
  exact collapse_noDbl l

/-- Drop a single leading blank piece (what front-stripping does to the
joined lines). -/
def dropLeadBlank : List (List Char) → List (List Char)
  | [] => []
  | l :: t => if l = [] then t else l :: t

theorem mem_dropLeadBlank (M : List (List Char)) (l : List Char)
    (h : l ∈ dropLeadBlank M) : l ∈ M := by
  cases M with
  | nil => cases h
  | cons l₀ t =>
    rw [dropLeadBlank] at h
    by_cases h0 : l₀ = []
    · rw [if_pos h0] at h
      exact List.mem_cons_of_mem _ h
    · rw [if_neg h0] at h
      exact h

theorem noTwoBlank_dropLeadBlank (M : List (List Char)) (h : noTwoBlank M) :
    noTwoBlank (dropLeadBlank M) := by
  cases M with
  | nil => exact List.chain'_nil
  | cons l₀ t =>
    rw [dropLeadBlank]
    by_cases h0 : l₀ = []
    · rw [if_pos h0]
      exact h.tail
    · rw [if_neg h0]
      exact h

theorem tidyNF_dropLeadBlank (M : List (List Char)) (h : TidyNF M) :
    TidyNF (dropLeadBlank M) :=
  ⟨fun l hl => h.1 l (mem_dropLeadBlank M l hl),
   fun l hl => h.2.1 l (mem_dropLeadBlank M l hl),
   fun l hl => h.2.2.1 l (mem_dropLeadBlank M l hl),
   noTwoBlank_dropLeadBlank M h.2.2.2⟩

theorem tidyNF_reverse_map (M : List (List Char)) (h : TidyNF M) :
    TidyNF (M.reverse.map List.reverse) := by
  refine ⟨?_, ?_, ?_, noTwoBlank_reverse_map M h.2.2.2⟩
  · intro l hl
    rcases List.mem_map.mp hl with ⟨m, hm, rfl⟩
    rw [List.mem_reverse] at hm
    exact fixed_reverse m (h.1 m hm)
  · intro l hl
    rcases List.mem_map.mp hl with ⟨m, hm, rfl⟩
    rw [List.mem_reverse] at hm
    intro hmem
    exact h.2.1 m hm (List.mem_reverse.mp hmem)
  · intro l hl
    rcases List.mem_map.mp hl with ⟨m, hm, rfl⟩
    rw [List.mem_reverse] at hm
    exact collapse_of_noDbl _ (noDbl_reverse m (noDbl_of_collapse_fixed m (h.2.2.1 m hm)))

theorem frontStrip_joinNl (M : List (List Char))
    (hfix : ∀ l ∈ M, pyStrip l = l) (hnb : noTwoBlank M) :
    frontStrip (joinNl M) = joinNl (dropLeadBlank M) := by
  cases M with
  | nil => rfl
  | cons l t =>
    rw [dropLeadBlank]
    by_cases hl : l = []
    · rw [if_pos hl]
      subst hl
      cases t with
      | nil => rfl
      | cons l₂ t' =>
        rw [joinNl_cons_cons, List.nil_append,
          frontStrip_cons_of_true '\n' _ (by decide)]
        have hl₂ : l₂ ≠ [] := by
          intro h2
          exact (List.chain'_cons'.mp hnb).1 l₂ rfl ⟨rfl, h2⟩
        have hfix₂ : pyStrip l₂ = l₂ :=
          hfix l₂ (List.mem_cons_of_mem _ (List.mem_cons_self _ _))
        cases t' with
        | nil =>
          rw [joinNl_single]
          exact frontStrip_of_fixed l₂ hfix₂
        | cons l₃ t'' =>
          rw [joinNl_cons_cons]
          exact frontStrip_append_of_fixed l₂ _ hl₂ (frontStrip_of_fixed l₂ hfix₂)
    · rw [if_neg hl]
      have hfixl : pyStrip l = l := hfix l (List.mem_cons_self _ _)
      cases t with
      | nil =>
        rw [joinNl_single]
        exact frontStrip_of_fixed l hfixl
      | cons l₂ t' =>
        rw [joinNl_cons_cons]
        exact frontStrip_append_of_fixed l _ hl (frontStrip_of_fixed l hfixl)

theorem normalizeWs_of_tidy (M : List (List Char)) (hM : M ≠ [])
    (h : TidyNF M) : normalizeWs (joinNl M) = joinNl M := by
  unfold normalizeWs
  rw [splitNl_joinNl M hM h.2.1]
  rw [cleanLines_id M false h.1 h.2.2.2 (by simp)]
  rw [collapse_joinNl, map_collapse_id M h.2.2.1]

theorem tidyNF_Mc (x : List Char) :
    TidyNF ((cleanLines (splitNl x) false).map collapseSpaces) := by
  refine ⟨?_, ?_, ?_, ?_⟩
  · intro l hl
    rcases List.mem_map.mp hl with ⟨m, hm, rfl⟩
    have hfixm : pyStrip m = m := by
      rcases cleanLines_mem _ _ _ hm with h1 | ⟨l₀, _, rfl⟩
      · rw [h1]; rfl
      · exact pyStrip_idem l₀
    exact collapse_stripFixed m hfixm
  · intro l hl
    rcases List.mem_map.mp hl with ⟨m, hm, rfl⟩
    intro hmem
    have hmem' : '\n' ∈ m := mem_collapse m '\n' hmem
    rcases cleanLines_mem _ _ _ hm with h1 | ⟨l₀, hl₀, rfl⟩
    · rw [h1] at hmem'; cases hmem'
    · exact splitNl_mem_no_nl x l₀ hl₀ (mem_pyStrip l₀ '\n' hmem')
  · intro l hl
    rcases List.mem_map.mp hl with ⟨m, _, rfl⟩
    exact collapse_idem m
  · exact noTwoBlank_map_collapse _ (cleanLines_chain (splitNl x) false).1

theorem normalizeWs_as_joinNl (x : List Char) :
    normalizeWs x = joinNl ((cleanLines (splitNl x) false).map collapseSpaces) := by
  unfold normalizeWs
  exact collapse_joinNl _

/-- The whitespace-normalization pass of `clean_email_content` is idempotent
on every string. -/
theorem normalizeWs_idem (x : List Char) :
    normalizeWs (normalizeWs x) = normalizeWs x := by
  rw [normalizeWs_as_joinNl x]
  have hMc := tidyNF_Mc x
  have hne : (cleanLines (splitNl x) false).map collapseSpaces ≠ [] := by
    intro h
    rw [List.map_eq_nil_iff] at h
    exact cleanLines_ne_nil _ (splitNl_ne_nil x) h
  exact normalizeWs_of_tidy _ hne hMc

theorem pyStrip_joinNl_tidy (M : List (List Char)) (h : TidyNF M) :
    ∃ N, TidyNF N ∧ pyStrip (joinNl M) = joinNl N := by
  refine ⟨((dropLeadBlank (((dropLeadBlank M).reverse.map List.reverse))).reverse.map
    List.reverse), ?_, ?_⟩
  · exact tidyNF_reverse_map _ (tidyNF_dropLeadBlank _
      (tidyNF_reverse_map _ (tidyNF_dropLeadBlank _ h)))
  · have h1 : TidyNF (dropLeadBlank M) := tidyNF_dropLeadBlank _ h
    have h2 : TidyNF ((dropLeadBlank M).reverse.map List.reverse) :=
      tidyNF_reverse_map _ h1
    unfold pyStrip
    rw [frontStrip_joinNl M h.1 h.2.2.2]
    rw [reverse_joinNl]
    have h3 : List.dropWhile isPySpace
        (joinNl ((dropLeadBlank M).reverse.map List.reverse))
        = joinNl (dropLeadBlank ((dropLeadBlank M).reverse.map List.reverse)) :=
      frontStrip_joinNl _ h2.1 h2.2.2.2
    rw [h3, reverse_joinNl]

/-- Claim C3 (amended): the whitespace-normalization pass is idempotent, and
`clean_email_content` applied twice equals once for every input whose
normalized text stays within the 50,000-character cap; the truncation path
breaks idempotence (see the counterexample). -/
theorem claim_C3_amended (parse : List Char → Option (List Node)) (x : List Char)
    (hcap : (normalizeWs x).length ≤ max_length) :
    clean_email_content parse [] (clean_email_content parse [] x)
      = clean_email_content parse [] x := by
  by_cases hx : x = []
  · subst hx
    simp [clean_email_content]
  · have hnlt : ¬ max_length < (normalizeWs x).length := Nat.not_lt.mpr hcap
    have hin : clean_email_content parse [] x = pyStrip (normalizeWs x) := by
      simp [clean_email_content, hx, hnlt]
    rw [hin]
    by_cases hy : pyStrip (normalizeWs x) = []
    · rw [hy]
      simp [clean_email_content]
    · obtain ⟨N, hN, hyN⟩ : ∃ N, TidyNF N ∧
          pyStrip (normalizeWs x) = joinNl N := by
        rcases pyStrip_joinNl_tidy _ (tidyNF_Mc x) with ⟨N, hN, hval⟩
        exact ⟨N, hN, by rw [normalizeWs_as_joinNl x]; exact hval⟩
      have hNne : N ≠ [] := by
        intro h
        rw [h] at hyN
        exact hy hyN
      have hfixy : normalizeWs (pyStrip (normalizeWs x)) = pyStrip (normalizeWs x) := by
        rw [hyN]
        exact normalizeWs_of_tidy N hNne hN
      have hlen : ¬ max_length < (normalizeWs (pyStrip (normalizeWs x))).length := by
        rw [hfixy]
        have h1 := length_pyStrip_le (normalizeWs x)
        omega
      have hstr : pyStrip (pyStrip (normalizeWs x)) = pyStrip (normalizeWs x) :=
        pyStrip_idem _
      have hlen2 : ¬ max_length < (pyStrip (normalizeWs x)).length := by
        have h1 := length_pyStrip_le (normalizeWs x)
        omega
      simp [clean_email_content, hy, hfixy, hlen, hstr]
      rw [if_neg hlen2]
      exact hstr

/-- Witness for the amended C3: a short messy input is cleaned identically by
one and by two applications of the pass. -/
theorem claim_C3_witness :
    clean_email_content (fun _ => none) []
        (clean_email_content (fun _ => none) [] "  a  b \n\n\n c ".toList)
      = clean_email_content (fun _ => none) [] "  a  b \n\n\n c ".toList :=
  claim_C3_amended (fun _ => none) "  a  b \n\n\n c ".toList (by decide)

/-! ## Counterexample to C3 as stated: an input just over the cap whose
truncation point leaves a trailing space on a line, so the second pass
re-normalizes and re-truncates to a different string. -/

def xC3 : List Char := List.replicate 49999 'x' ++ ' ' :: List.replicate 10 'y'

def yC3 : List Char := List.replicate 49999 'x' ++ ' ' :: truncationMarker

def zC3 : List Char := List.replicate 49999 'x' ++ '\n' :: truncationMarker

def mrest : List Char := "[Content truncated for length...]".toList

theorem marker_eq : truncationMarker = '\n' :: '\n' :: mrest := by decide

theorem xC3_ne : xC3 ≠ [] := by
  intro h
  have := congrArg List.length h
  rw [xC3, List.length_append, List.length_replicate] at this
  simp at this

theorem no_nl_xC3 : '\n' ∉ xC3 := by
  intro h
  rw [xC3, List.mem_append] at h
  rcases h with h | h
  · rw [List.mem_replicate] at h
    exact absurd h.2 (by decide)
  · rcases List.mem_cons.mp h with h | h
    · exact absurd h (by decide)
    · rw [List.mem_replicate] at h
      exact absurd h.2 (by decide)

theorem pyStrip_xC3 : pyStrip xC3 = xC3 := by
  refine pyStrip_eq_self _ ?_ ?_
  · rw [xC3]
    exact frontStrip_append_of_fixed _ _ (replicate_ne_nil _ _ (by omega))
      (frontStrip_replicate _ _ (by decide))
  · rw [xC3, List.reverse_append, List.reverse_cons, List.reverse_replicate,
      List.append_assoc]
    exact frontStrip_append_of_fixed _ _ (replicate_ne_nil _ _ (by omega))
      (frontStrip_replicate _ _ (by decide))

theorem normalizeWs_xC3 : normalizeWs xC3 = xC3 := by
  unfold normalizeWs
  rw [splitNl_no_nl _ no_nl_xC3, cleanLines, pyStrip_xC3, if_neg xC3_ne,
    cleanLines, joinNl_single]
  rw [xC3, collapse_replicate_append _ _ (by decide)]
  congr 1

theorem xC3_len : xC3.length = 50010 := by
  rw [xC3, List.length_append, List.length_replicate, List.length_cons,
    List.length_replicate]

theorem take_xC3 : xC3.take max_length = List.replicate 49999 'x' ++ [' '] := by
  rw [xC3, List.take_append_eq_append_take, List.take_replicate,
    List.length_replicate]
  have h1 : min max_length 49999 = 49999 := by decide
  have h2 : max_length - 49999 = 1 := by decide
  rw [h1, h2]
  congr 1

theorem pyStrip_yC3 : pyStrip yC3 = yC3 := by
  refine pyStrip_eq_self _ ?_ ?_
  · rw [yC3]
    exact frontStrip_append_of_fixed _ _ (replicate_ne_nil _ _ (by omega))
      (frontStrip_replicate _ _ (by decide))
  · rw [yC3, List.reverse_append, List.reverse_replicate]
    exact frontStrip_append_of_fixed _ _ (by decide) (by decide)

theorem cleanC3_first (parse : List Char → Option (List Node)) :
    clean_email_content parse [] xC3 = yC3 := by
  have hlt : max_length < (normalizeWs xC3).length := by
    rw [normalizeWs_xC3, xC3_len]
    decide
  simp [clean_email_content, xC3_ne, hlt]
  rw [normalizeWs_xC3, take_xC3, List.append_assoc]
  exact pyStrip_yC3

theorem pyStrip_line1 :
    pyStrip (List.replicate 49999 'x' ++ [' ']) = List.replicate 49999 'x' := by
  unfold pyStrip
  have h1 : frontStrip (List.replicate 49999 'x' ++ [' '])
      = List.replicate 49999 'x' ++ [' '] :=
    frontStrip_append_of_fixed _ _ (replicate_ne_nil _ _ (by omega))
      (frontStrip_replicate _ _ (by decide))
  rw [h1, List.reverse_append, List.reverse_replicate]
  have h2 : (([' '] : List Char).reverse ++ List.replicate 49999 'x').dropWhile
      isPySpace = List.replicate 49999 'x' := by
    rw [show ([' '] : List Char).reverse = [' '] from rfl, List.singleton_append,
      List.dropWhile_cons, if_pos (by decide)]
    exact frontStrip_replicate _ _ (by decide)
  rw [h2, List.reverse_replicate]

theorem splitNl_yC3 :
    splitNl yC3 = [List.replicate 49999 'x' ++ [' '], [], mrest] := by
  have hb : splitNl (' ' :: truncationMarker) = [' '] :: [[], mrest] := by decide
  rw [yC3, splitNl_append (List.replicate 49999 'x') _ (by
      intro h
      rw [List.mem_replicate] at h
      exact absurd h.2 (by decide)) [' '] [[], mrest] hb]

theorem normalizeWs_yC3 :
    normalizeWs yC3 = List.replicate 49999 'x' ++ truncationMarker := by
  unfold normalizeWs
  rw [splitNl_yC3, cleanLines, pyStrip_line1,
    if_neg (replicate_ne_nil 49999 'x' (by omega))]
  rw [show cleanLines [[], mrest] false = [[], mrest] from by decide]
  rw [joinNl_cons_cons, show joinNl [[], mrest] = '\n' :: mrest from by decide]
  rw [collapse_replicate_append _ _ (by decide)]
  rw [show collapseSpaces ('\n' :: '\n' :: mrest) = '\n' :: '\n' :: mrest from
    by decide]
  rw [marker_eq]

theorem len_normYC3 :
    max_length < (List.replicate 49999 'x' ++ truncationMarker).length := by
  rw [List.length_append, List.length_replicate]
  decide

theorem take_normYC3 :
    (List.replicate 49999 'x' ++ truncationMarker).take max_length
      = List.replicate 49999 'x' ++ ['\n'] := by
  rw [List.take_append_eq_append_take, List.take_replicate, List.length_replicate]
  have h1 : min max_length 49999 = 49999 := by decide
  have h2 : max_length - 49999 = 1 := by decide
  rw [h1, h2]
  congr 1

theorem pyStrip_zC3 : pyStrip zC3 = zC3 := by
  refine pyStrip_eq_self _ ?_ ?_
  · rw [zC3]
    exact frontStrip_append_of_fixed _ _ (replicate_ne_nil _ _ (by omega))
      (frontStrip_replicate _ _ (by decide))
  · rw [zC3, List.reverse_append, List.reverse_replicate]
    exact frontStrip_append_of_fixed _ _ (by decide) (by decide)

theorem cleanC3_second (parse : List Char → Option (List Node)) :
    clean_email_content parse [] yC3 = zC3 := by
  have hyne : yC3 ≠ [] := by
    intro h
    have := congrArg List.length h
    rw [yC3, List.length_append, List.length_replicate] at this
    simp at this
  have hlt : max_length < (normalizeWs yC3).length := by
    rw [normalizeWs_yC3]
    exact len_normYC3
  simp [clean_email_content, hyne, hlt]
  rw [normalizeWs_yC3, take_normYC3, List.append_assoc]
  exact pyStrip_zC3

/-- Counterexample to claim C3 as stated: for the 50,010-character input
`xC3` (49,999 'x', one space, ten 'y'), the first cleaning truncates right
after the space, leaving a line with a trailing space before the appended
marker; the second cleaning strips that space, re-truncates at a different
point and produces a different string — so the
whitespace-normalization-and-truncation pass is not idempotent. -/
theorem claim_C3_counterexample :
    clean_email_content (fun _ => none) []
        (clean_email_content (fun _ => none) [] xC3)
      ≠ clean_email_content (fun _ => none) [] xC3 := by
  rw [cleanC3_first (fun _ => none), cleanC3_second (fun _ => none)]
  rw [zC3, yC3]
  intro h
  have h2 := List.append_cancel_left h
  have h3 : '\n' = ' ' := by injection h2
  exact absurd h3 (by decide)

end Gmail
